import Mathlib

/-!
Verification of the `nrl` random-walk corpus generator.

This file shallowly embeds the three source files
`src/nrl/algorithm/node2vec.py`, `src/nrl/walker/walkers.py` and
`src/nrl/walker/utils.py` in Lean 4 and proves or refutes the frozen
claims about them.

Modelling conventions
- Vertices are `Nat`. The igraph attributes `'name'` and `'label'` are
  modelled as the vertex identifier itself (they are caller-supplied and
  only used as dictionary keys / emitted tokens).
- Edge weights and probabilities are `Rat` (exact arithmetic; the spec's
  "within floating tolerance; exactly 1 over exact arithmetic").
- Python exceptions are the explicit `PyErr` codomain of fallible code.
  `ValueError` stands for the spec's abstract `InvalidParameter`.
- Randomness is passed explicitly: `random.random()` draws come from a
  stream `Nat → Rat` (draws lie in `[0,1)`), and `random.choice` /
  `np.random.choice` index draws come from a stream `Nat → Nat`
  (the chosen index is the draw modulo the list length).
- igraph semantics used by the source and embedded here:
  * `Vertex.neighbors()` lists the adjacent vertices (we use the order of
    the graph's vertex list; no claim depends on the particular order).
  * `Graph.neighborhood_size(v)` is the order-1 neighborhood size, which
    counts the vertex itself (distance 0), hence `1 + deg(v)` and never 0.
  * `es.select(_between=([u],[v]))` matches the edge irrespective of its
    stored orientation; `es.select(_source=u, _target=v)` compares the
    stored source/target of each edge, so it is orientation-sensitive
    even on undirected graphs.
- numpy semantics: `np.random.choice(a, p=...)` raises `ValueError` when
  `a` is empty, and validates `p` (length match, non-negative entries,
  sums to 1) when it is given; `p=None` means a uniform draw.
-/

namespace NRL

/-- Python exceptions that the embedded code can raise. -/
inductive PyErr where
  | zeroDivisionError
  | valueError
  | indexError
  | keyError
  deriving DecidableEq, Repr

/-- A weighted graph as igraph stores it: a vertex list and a list of
edges, each with its stored orientation `(source, target)` and a weight.
Undirected graphs keep one stored record per edge; adjacency and
`_between` lookups ignore the orientation, `_source`/`_target` lookups
do not. -/
structure PGraph where
  verts : List Nat
  edges : List (Nat × Nat × Rat)
  deriving DecidableEq, Repr

/-- `es.select(_between=([u],[v]))[weight][0]`: the weight of the edge
joining `u` and `v`, in either stored orientation (first match). -/
def PGraph.edgeBetween (g : PGraph) (u v : Nat) : Option Rat :=
  (g.edges.find? (fun e => (e.1 == u && e.2.1 == v) || (e.1 == v && e.2.1 == u))).map
    (fun e => e.2.2)

/-- Whether an edge joins `u` and `v` (orientation-insensitive). -/
def PGraph.adjacent (g : PGraph) (u v : Nat) : Bool :=
  (g.edgeBetween u v).isSome

/-- `len(es.select(_source=s, _target=t)) > 0`: whether an edge is stored
with source `s` and target `t` (orientation-sensitive). -/
def PGraph.hasStoredEdge (g : PGraph) (s t : Nat) : Bool :=
  g.edges.any (fun e => e.1 == s && e.2.1 == t)

/-- `Vertex.neighbors()`: the vertices adjacent to `v`. -/
def PGraph.neighbors (g : PGraph) (v : Nat) : List Nat :=
  g.verts.filter (fun u => g.adjacent v u)

/-- igraph `Graph.neighborhood_size(v)`: the order-1 neighborhood counts
the vertex itself, so the size is `1 + deg(v)` and in particular is never
zero (never falsy). -/
def PGraph.neighborhood_size (g : PGraph) (v : Nat) : Nat :=
  1 + (g.neighbors v).length

/-- A per-vertex sampling-strategy override record (`sampling_strategy`
values; the keys `'p'`, `'q'`, `'num_walks'`, `'walk_length'`). -/
structure SamplingOverride where
  p : Option Rat := none
  q : Option Rat := none
  num_walks : Option Nat := none
  walk_length : Option Nat := none
  deriving DecidableEq, Repr

/-- `RandomWalkParameters` from `walker/utils.py`. -/
structure RandomWalkParameters where
  number_paths : Nat := 10
  max_path_length : Nat := 40
  restart_probability : Rat := 0
  p : Rat := 1
  q : Rat := 1
  sampling_strategy : List (Nat × SamplingOverride) := []
  is_directed : Bool := false
  is_weighted : Bool := true
  deriving DecidableEq, Repr

/-- `vertex in self.sampling_strategy` / `self.sampling_strategy[vertex]`:
dictionary lookup in the sampling strategy. -/
def lookupStrategy (prm : RandomWalkParameters) (v : Nat) : Option SamplingOverride :=
  (prm.sampling_strategy.find? (fun e => e.1 == v)).map (fun e => e.2)

/-- `Node2VecModel._get_p`. -/
def get_p (prm : RandomWalkParameters) (v : Nat) : Rat :=
  match lookupStrategy prm v with
  | some s => s.p.getD prm.p
  | none => prm.p

/-- `Node2VecModel._get_q`. -/
def get_q (prm : RandomWalkParameters) (v : Nat) : Rat :=
  match lookupStrategy prm v with
  | some s => s.q.getD prm.q
  | none => prm.q

/-- Python division: raises `ZeroDivisionError` on a zero divisor. -/
def pyDiv (a b : Rat) : Except PyErr Rat :=
  if b = 0 then .error .zeroDivisionError else .ok (a / b)

/-- `Node2VecModel._compute_prob(source, target, p, q, weight)`:
`weight / p` when the target is the source, `weight` when an edge is
stored with orientation `source → target` (`es.select(_source=source,
_target=target)`), `weight / q` otherwise. -/
def compute_prob (g : PGraph) (source target : Nat) (p q weight : Rat) :
    Except PyErr Rat :=
  if target = source then pyDiv weight p
  else if g.hasStoredEdge source target then .ok weight
  else pyDiv weight q

/-- The body of the loop in `Node2VecModel._compute_unnormalized_weights`
over the targets (the neighbors of `current`). `ftNeeded` is the constant
value of `current_node['name'] not in first_travel_done` during the loop.
A missing edge record would make `edge[weight_key][0]` fail with
`IndexError` (never happens for genuine neighbors). -/
def computeWeightsAux (g : PGraph) (prm : RandomWalkParameters)
    (source current : Nat) (ftNeeded : Bool) :
    List Nat → Except PyErr (List Rat × List Rat)
  | [] => .ok ([], [])
  | t :: ts => do
    let p := get_p prm current
    let q := get_q prm current
    match g.edgeBetween current t with
    | none => .error .indexError
    | some w =>
      let uw ← compute_prob g source t p q w
      let (uws, fts) ← computeWeightsAux g prm source current ftNeeded ts
      .ok (uw :: uws, if ftNeeded then w :: fts else fts)

/-- `Node2VecModel._compute_unnormalized_weights`. -/
def compute_unnormalized_weights (g : PGraph) (prm : RandomWalkParameters)
    (source current : Nat) (ftDone : List Nat) :
    Except PyErr (List Rat × List Rat) :=
  computeWeightsAux g prm source current (!ftDone.contains current) (g.neighbors current)

/-- `unnormalized_weights / unnormalized_weights.sum()` (numpy array
division; no exception is raised by numpy here). -/
def normalize (xs : List Rat) : List Rat :=
  xs.map (fun x => x / xs.sum)

/-- The vertex attributes written by `_precompute_probs`:
`probabilities` entries keyed by `(current, source name)`, the
`first_travel_key` entries, and the `first_travel_done` bookkeeping set
(kept as a list in insertion order). -/
structure Tables where
  probs : List ((Nat × Nat) × List Rat) := []
  firstTravel : List (Nat × List Rat) := []
  ftDone : List Nat := []
  deriving DecidableEq, Repr

/-- `current_node[PROBS_KEY][source_name]` (a missing key raises
`KeyError` at the use site). -/
def Tables.probsLookup (tb : Tables) (current source : Nat) : Option (List Rat) :=
  (tb.probs.find? (fun e => e.1 == (current, source))).map (fun e => e.2)

/-- `vertex[FIRST_TRAVEL_KEY]` (an attribute set on some vertices but not
this one reads as `None`). -/
def Tables.firstTravelLookup (tb : Tables) (v : Nat) : Option (List Rat) :=
  (tb.firstTravel.find? (fun e => e.1 == v)).map (fun e => e.2)

/-- Inner loop of `_precompute_probs`: `for current_node in
source.neighbors()`. -/
def precomputeInner (g : PGraph) (prm : RandomWalkParameters) (source : Nat) :
    List Nat → Tables → Except PyErr Tables
  | [], tb => .ok tb
  | current :: rest, tb => do
    let (uws, fts) ← compute_unnormalized_weights g prm source current tb.ftDone
    let tb' : Tables :=
      if tb.ftDone.contains current then
        { tb with probs := tb.probs ++ [((current, source), normalize uws)] }
      else
        { probs := tb.probs ++ [((current, source), normalize uws)],
          firstTravel := tb.firstTravel ++ [(current, normalize fts)],
          ftDone := tb.ftDone ++ [current] }
    precomputeInner g prm source rest tb'

/-- Outer loop of `_precompute_probs`: `for source in self.graph.vs`. -/
def precomputeOuter (g : PGraph) (prm : RandomWalkParameters) :
    List Nat → Tables → Except PyErr Tables
  | [], tb => .ok tb
  | s :: rest, tb => do
    let tb' ← precomputeInner g prm s (g.neighbors s) tb
    precomputeOuter g prm rest tb'

/-- `Node2VecModel._precompute_probs`. -/
def precompute_probs (g : PGraph) (prm : RandomWalkParameters) :
    Except PyErr Tables :=
  precomputeOuter g prm g.verts {}

/-- Overwriting every edge weight, as `__init__` does for graphs declared
unweighted (`for edge in self.graph.es: edge['weight'] = 1`). -/
def setAllWeights (g : PGraph) (w : Rat) : PGraph :=
  { g with edges := g.edges.map (fun e => (e.1, e.2.1, w)) }

/-- `Node2VecModel.__init__`: mutates the supplied graph (modelled as
returning the updated graph) and runs the one-time precomputation. -/
def node2vecInit (g : PGraph) (prm : RandomWalkParameters) :
    Except PyErr (PGraph × Tables) :=
  let g' := if prm.is_weighted then g else setAllWeights g 1
  (precompute_probs g' prm).map (fun tb => (g', tb))

/-- The constructed model state, or a default when construction raised
(used only to phrase closed concrete statements). -/
def initOrDefault (g : PGraph) (prm : RandomWalkParameters) : PGraph × Tables :=
  ((node2vecInit g prm).toOption).getD (g, {})

/-- The precomputed tables of a concrete model, or empty ones when the
precomputation raised. -/
def tablesOrEmpty (g : PGraph) (prm : RandomWalkParameters) : Tables :=
  (initOrDefault g prm).2

/-- `random.choice(xs)` with the current index draw `k`: raises
`IndexError` on an empty sequence, otherwise picks the element at
`k % length` (the draw stream is arbitrary, so this loses no
generality). -/
def randomChoice (xs : List Nat) (k : Nat) : Except PyErr Nat :=
  match xs.get? (k % xs.length) with
  | some x => .ok x
  | none => .error .indexError

/-- `np.random.choice(xs, p=ps)` with the current index draw `k`:
raises `ValueError` on an empty sequence; when `ps` is given it must
match the length of `xs`, have non-negative entries and sum to 1
(numpy validates this within a tolerance; exact arithmetic here),
otherwise `ValueError` again. -/
def npRandomChoice (xs : List Nat) (ps : Option (List Rat)) (k : Nat) :
    Except PyErr Nat :=
  if xs.length = 0 then .error .valueError
  else
    match ps with
    | none => .ok (xs.getD (k % xs.length) 0)
    | some l =>
      if l.length = xs.length ∧ (∀ x ∈ l, 0 ≤ x) ∧ l.sum = 1 then
        .ok (xs.getD (k % xs.length) 0)
      else .error .valueError

/-- The while loop of `StandardRandomWalker.get_igraph_walk`, returning
the vertices emitted after position `pathLength`. Note the loop guard
uses `graph.neighborhood_size(tail)`, which is never zero, so the guard
reduces to the length test and `random.choice` is reached even when the
tail has no neighbors. -/
def standardWalkAux (g : PGraph) (mpl : Nat) (c : Nat → Nat)
    (tail pathLength : Nat) : Except PyErr (List Nat) :=
  if _h : pathLength < mpl ∧ g.neighborhood_size tail ≠ 0 then
    match randomChoice (g.neighbors tail) (c pathLength) with
    | .error e => .error e
    | .ok t =>
      match standardWalkAux g mpl c t (pathLength + 1) with
      | .error e => .error e
      | .ok rest => .ok (t :: rest)
  else .ok []
termination_by mpl - pathLength
decreasing_by omega

/-- `StandardRandomWalker.get_igraph_walk` (the generator run to
completion; an exception partway discards the walk and surfaces the
error). -/
def standardWalk (g : PGraph) (prm : RandomWalkParameters) (vertex : Nat)
    (c : Nat → Nat) : Except PyErr (List Nat) :=
  match standardWalkAux g prm.max_path_length c vertex 1 with
  | .error e => .error e
  | .ok rest => .ok (vertex :: rest)

/-- The while loop of `RestartingRandomWalker.get_igraph_walk`. The next
tail is the original start vertex when `restart_probability <=
random.random()`, and a uniformly chosen neighbor of the current tail
otherwise. -/
def restartingWalkAux (g : PGraph) (mpl : Nat) (rp : Rat) (u : Nat → Rat)
    (c : Nat → Nat) (start tail pathLength : Nat) : Except PyErr (List Nat) :=
  if _h : pathLength < mpl ∧ g.neighborhood_size tail ≠ 0 then
    match
      (if rp ≤ u pathLength then Except.ok start
       else randomChoice (g.neighbors tail) (c pathLength)) with
    | .error e => .error e
    | .ok t =>
      match restartingWalkAux g mpl rp u c start t (pathLength + 1) with
      | .error e => .error e
      | .ok rest => .ok (t :: rest)
  else .ok []
termination_by mpl - pathLength
decreasing_by omega

/-- `RestartingRandomWalker.get_igraph_walk`. -/
def restartingWalk (g : PGraph) (prm : RandomWalkParameters) (vertex : Nat)
    (u : Nat → Rat) (c : Nat → Nat) : Except PyErr (List Nat) :=
  match restartingWalkAux g prm.max_path_length prm.restart_probability u c
      vertex vertex 1 with
  | .error e => .error e
  | .ok rest => .ok (vertex :: rest)

/-- `BiasedRandomWalker._check`. -/
def biased_check (prm : RandomWalkParameters) (vertex : Nat) : Bool :=
  match lookupStrategy prm vertex with
  | some s =>
    match s.num_walks with
    | some nw => decide (nw ≤ prm.number_paths)
    | none => false
  | none => false

/-- The effective walk length of `BiasedRandomWalker.get_igraph_walk`:
the per-vertex `walk_length` override when present, else the global
`max_path_length`. -/
def effectiveWalkLength (prm : RandomWalkParameters) (vertex : Nat) : Nat :=
  match lookupStrategy prm vertex with
  | some s => s.walk_length.getD prm.max_path_length
  | none => prm.max_path_length

/-- The while loop of `BiasedRandomWalker.get_igraph_walk`: a dead-end
tail breaks, otherwise the second-order distribution for
`(tail, double_tail)` is looked up (`KeyError` when absent) and sampled
from. -/
def biasedWalkLoop (g : PGraph) (tb : Tables) (walkLength : Nat)
    (c : Nat → Nat) (doubleTail tail pathLength : Nat) :
    Except PyErr (List Nat) :=
  if _h : pathLength < walkLength then
    if (g.neighbors tail).isEmpty then .ok []
    else
      match tb.probsLookup tail doubleTail with
      | none => .error .keyError
      | some probabilities =>
        match npRandomChoice (g.neighbors tail) (some probabilities) (c pathLength) with
        | .error e => .error e
        | .ok t =>
          match biasedWalkLoop g tb walkLength c tail t (pathLength + 1) with
          | .error e => .error e
          | .ok rest => .ok (t :: rest)
  else .ok []
termination_by walkLength - pathLength
decreasing_by omega

/-- `BiasedRandomWalker.get_igraph_walk` (the generator run to
completion). Rejects `max_path_length < 2` with `ValueError`; returns
the empty walk when `_check` fires; the first step samples the
first-travel distribution (`None` when the attribute was never set on
this vertex). The source's `if not tail` test never fires because
igraph vertex objects are always truthy, so it is not modelled. -/
def biasedWalk (g : PGraph) (tb : Tables) (prm : RandomWalkParameters)
    (vertex : Nat) (c : Nat → Nat) : Except PyErr (List Nat) :=
  if prm.max_path_length < 2 then .error .valueError
  else if biased_check prm vertex then .ok []
  else
    match npRandomChoice (g.neighbors vertex) (tb.firstTravelLookup vertex) (c 1) with
    | .error e => .error e
    | .ok tail =>
      match biasedWalkLoop g tb (effectiveWalkLength prm vertex) c vertex tail 2 with
      | .error e => .error e
      | .ok rest => .ok (vertex :: tail :: rest)

/-- `AbstractRandomWalker.get_walks`: `number_paths` repetitions; each
repetition shuffles a copy of the vertex list (the shuffled copy is then
unused — the loop iterates `graph.vs`) and yields one walk per vertex.
`shuffleFn` stands for the shuffle's consumption of randomness; its
result is discarded exactly as in the source. -/
def get_walks (verts : List Nat) (number_paths : Nat)
    (shuffleFn : Nat → List Nat → List Nat)
    (walkOf : Nat → Nat → Except PyErr (List Nat)) :
    List (Except PyErr (List Nat)) :=
  (List.range number_paths).map
    (fun rep =>
      let _shuffled := shuffleFn rep verts
      verts.map (fun v => walkOf rep v))
  |>.flatten

/-- The biased-walker corpus: `get_walks` with
`BiasedRandomWalker.get_igraph_walk`, the per-(repetition, vertex)
randomness supplied by `streams`. -/
def biasedGetWalks (g : PGraph) (tb : Tables) (prm : RandomWalkParameters)
    (shuffleFn : Nat → List Nat → List Nat)
    (streams : Nat → Nat → Nat → Nat) : List (Except PyErr (List Nat)) :=
  get_walks g.verts prm.number_paths shuffleFn
    (fun rep v => biasedWalk g tb prm v (streams rep v))

/-- `Node2VecModel.fit`'s corpus generation pipeline: construct the model
(precomputing the tables, possibly overwriting weights) and generate the
biased corpus. -/
def generate_corpus (g : PGraph) (prm : RandomWalkParameters)
    (shuffleFn : Nat → List Nat → List Nat)
    (streams : Nat → Nat → Nat → Nat) :
    Except PyErr (List (Except PyErr (List Nat))) :=
  (node2vecInit g prm).map
    (fun gt => biasedGetWalks gt.1 gt.2 prm shuffleFn streams)

/-! ### Closed-form descriptions of the precomputed tables

These restate what one pass of `_compute_unnormalized_weights` produces,
as pure functions of the graph and parameters; the lemmas below prove
that the imperative precomputation loop indeed fills the tables with
these values. -/

/-- The weight of the edge joining `v` and `t` (0 as a dummy when no such
edge exists; only used at genuine neighbors). -/
def weightBetween (g : PGraph) (v t : Nat) : Rat :=
  (g.edgeBetween v t).getD 0

/-- The unnormalized second-order weight the precomputation assigns to
the step `current → t` given the walk arrived from `source`. -/
def specWeight (g : PGraph) (prm : RandomWalkParameters)
    (source current t : Nat) : Rat :=
  if t = source then weightBetween g current t / get_p prm current
  else if g.hasStoredEdge source t then weightBetween g current t
  else weightBetween g current t / get_q prm current

/-- The unnormalized second-order weight list for `(current, source)`. -/
def specUWs (g : PGraph) (prm : RandomWalkParameters)
    (source current : Nat) : List Rat :=
  (g.neighbors current).map (specWeight g prm source current)

/-- The unnormalized first-travel weight list of `current`. -/
def ftSpec (g : PGraph) (current : Nat) : List Rat :=
  (g.neighbors current).map (weightBetween g current)

/-- Invariant of the precomputation loop state: every `probabilities`
entry and every `first_travel_key` entry holds the normalized weight list
of its key, and the `first_travel_done` set tracks exactly the vertices
with a first-travel entry. -/
def TablesInv (g : PGraph) (prm : RandomWalkParameters) (tb : Tables) : Prop :=
  (∀ e ∈ tb.probs, e.2 = normalize (specUWs g prm e.1.2 e.1.1)) ∧
  (∀ e ∈ tb.firstTravel, e.2 = normalize (ftSpec g e.1)) ∧
  (∀ v : Nat, (tb.firstTravelLookup v).isSome ↔ v ∈ tb.ftDone)

/-! ### Concrete instances used in closed statements -/

/-- The spec's triangle A–B–C (A = 0, B = 1, C = 2), all weights 1; the
A–C edge is stored with orientation `(0, 2)`. -/
def triangleGraph : PGraph :=
  { verts := [0, 1, 2], edges := [(0, 1, 1), (1, 2, 1), (0, 2, 1)] }

/-- The spec's bias scenario: `p = 0.5`, `q = 2`. -/
def trianglePrm : RandomWalkParameters :=
  { p := 1/2, q := 2 }

/-- Parameters with a negative global return parameter (and `q = 3`, so
that no unnormalized weight list sums to zero on the triangle). -/
def negativePPrm : RandomWalkParameters :=
  { p := -2, q := 3 }

/-- A graph in which vertex 0 is isolated while the edge 1–2 keeps the
`first_travel_key` attribute present on the graph. -/
def isolatedGraph : PGraph :=
  { verts := [0, 1, 2], edges := [(1, 2, 1)] }

/-- A single edge 0–1 of weight 1. -/
def pairGraph : PGraph :=
  { verts := [0, 1], edges := [(0, 1, 1)] }

/-- A single edge 0–1 of weight 5, declared unweighted, so construction
overwrites the weight. -/
def unweightedPairGraph : PGraph :=
  { verts := [0, 1], edges := [(0, 1, 5)] }

/-- Parameters declaring the graph unweighted. -/
def unweightedPrm : RandomWalkParameters :=
  { is_weighted := false }

/-- `max_path_length = 2` with a `walk_length = 1` override for vertex
0. -/
def overridePrm : RandomWalkParameters :=
  { max_path_length := 2,
    sampling_strategy := [(0, { walk_length := some 1 })] }

/-- Two repetitions over the triangle, with vertex 0 skipped by its
`num_walks = 1 ≤ 2` override. -/
def skipPrm : RandomWalkParameters :=
  { number_paths := 2, max_path_length := 3,
    sampling_strategy := [(0, { num_walks := some 1 })] }

/-- The tables the precomputation builds on `pairGraph` (weight-1 edge,
global `p = q = 1`). -/
def pairTables : Tables :=
  { probs := [((1, 0), [1]), ((0, 1), [1])],
    firstTravel := [(1, [1]), (0, [1])],
    ftDone := [1, 0] }

/-- The tables the precomputation builds on `triangleGraph` with
`trianglePrm` (`p = 1/2`, `q = 2`). -/
def triangleTables : Tables :=
  { probs := [((1, 0), [2/3, 1/3]), ((2, 0), [2/3, 1/3]), ((0, 1), [2/3, 1/3]),
              ((2, 1), [1/5, 4/5]), ((0, 2), [1/5, 4/5]), ((1, 2), [1/5, 4/5])],
    firstTravel := [(1, [1/2, 1/2]), (2, [1/2, 1/2]), (0, [1/2, 1/2])],
    ftDone := [1, 2, 0] }

/-- The tables the precomputation builds on `triangleGraph` with
`negativePPrm` (`p = -2`, `q = 3`): negative stored entries, no error. -/
def negativeTables : Tables :=
  { probs := [((1, 0), [-1, 2]), ((2, 0), [-1, 2]), ((0, 1), [-1, 2]),
              ((2, 1), [-2, 3]), ((0, 2), [-2, 3]), ((1, 2), [-2, 3])],
    firstTravel := [(1, [1/2, 1/2]), (2, [1/2, 1/2]), (0, [1/2, 1/2])],
    ftDone := [1, 2, 0] }

/-- The tables the precomputation builds on `triangleGraph` with
`skipPrm` (`p = q = 1`). -/
def skipTables : Tables :=
  { probs := [((1, 0), [1/2, 1/2]), ((2, 0), [1/2, 1/2]), ((0, 1), [1/2, 1/2]),
              ((2, 1), [1/2, 1/2]), ((0, 2), [1/2, 1/2]), ((1, 2), [1/2, 1/2])],
    firstTravel := [(1, [1/2, 1/2]), (2, [1/2, 1/2]), (0, [1/2, 1/2])],
    ftDone := [1, 2, 0] }

/-- The tables the precomputation builds on `isolatedGraph`: the isolated
vertex 0 has no `probabilities` key and no `first_travel_key`. -/
def isolatedTables : Tables :=
  { probs := [((2, 1), [1]), ((1, 2), [1])],
    firstTravel := [(2, [1]), (1, [1])],
    ftDone := [2, 1] }

end NRL

deriving instance DecidableEq for Except

namespace NRL

/-! ### Basic graph lemmas -/

theorem mem_neighbors {g : PGraph} {v u : Nat} :
    u ∈ g.neighbors v ↔ u ∈ g.verts ∧ g.adjacent v u = true := by
  simp [PGraph.neighbors, List.mem_filter]

theorem neighbors_subset {g : PGraph} {v u : Nat} (h : u ∈ g.neighbors v) :
    u ∈ g.verts :=
  (mem_neighbors.mp h).1

theorem edgeBetween_comm (g : PGraph) (u v : Nat) :
    g.edgeBetween u v = g.edgeBetween v u := by
  unfold PGraph.edgeBetween
  have hpred :
      (fun (e : Nat × Nat × Rat) => (e.1 == u && e.2.1 == v) || (e.1 == v && e.2.1 == u))
        = (fun (e : Nat × Nat × Rat) => (e.1 == v && e.2.1 == u) || (e.1 == u && e.2.1 == v)) := by
    funext e
    exact Bool.or_comm _ _
  rw [hpred]

theorem adjacent_comm (g : PGraph) (u v : Nat) :
    g.adjacent u v = g.adjacent v u := by
  unfold PGraph.adjacent
  rw [edgeBetween_comm]

theorem mem_neighbors_symm {g : PGraph} {v u : Nat} (hv : v ∈ g.verts)
    (hu : u ∈ g.neighbors v) : v ∈ g.neighbors u :=
  mem_neighbors.mpr ⟨hv, by rw [adjacent_comm]; exact (mem_neighbors.mp hu).2⟩

theorem edgeBetween_isSome_of_mem {g : PGraph} {v u : Nat}
    (h : u ∈ g.neighbors v) : (g.edgeBetween v u).isSome := by
  have := (mem_neighbors.mp h).2
  unfold PGraph.adjacent at this
  exact this

theorem weightBetween_pos {g : PGraph} {v u : Nat}
    (hw : ∀ e ∈ g.edges, 0 < e.2.2) (h : u ∈ g.neighbors v) :
    0 < weightBetween g v u := by
  obtain ⟨w, hsome⟩ := Option.isSome_iff_exists.mp (edgeBetween_isSome_of_mem h)
  obtain ⟨e, hfind, hval⟩ := Option.map_eq_some'.mp hsome
  have hmem : e ∈ g.edges := List.mem_of_find?_eq_some hfind
  have : 0 < w := hval ▸ hw e hmem
  simp [weightBetween, hsome, this]

theorem specWeight_pos {g : PGraph} {prm : RandomWalkParameters}
    {source current t : Nat} (hw : ∀ e ∈ g.edges, 0 < e.2.2)
    (hp : 0 < get_p prm current) (hq : 0 < get_q prm current)
    (ht : t ∈ g.neighbors current) :
    0 < specWeight g prm source current t := by
  have hwpos := weightBetween_pos hw ht
  unfold specWeight
  split
  · exact div_pos hwpos hp
  · split
    · exact hwpos
    · exact div_pos hwpos hq

/-! ### Normalization lemmas -/

theorem sum_map_div (xs : List Rat) (s : Rat) :
    (xs.map (fun x => x / s)).sum = xs.sum / s := by
  induction xs with
  | nil => simp
  | cons x xs ih => simp [ih, add_div]

theorem normalize_length (xs : List Rat) : (normalize xs).length = xs.length := by
  simp [normalize]

theorem normalize_sum {xs : List Rat} (h : 0 < xs.sum) :
    (normalize xs).sum = 1 := by
  unfold normalize
  rw [sum_map_div]
  exact div_self (ne_of_gt h)

theorem sum_pos_of_mem_pos {xs : List Rat} (h : ∀ x ∈ xs, 0 < x)
    (hne : xs ≠ []) : 0 < xs.sum :=
  List.sum_pos xs h hne

theorem normalize_nonneg {xs : List Rat} (h : ∀ x ∈ xs, 0 < x) :
    ∀ y ∈ normalize xs, 0 ≤ y := by
  intro y hy
  obtain ⟨x, hx, rfl⟩ := List.mem_map.mp hy
  rcases List.eq_nil_or_concat xs with rfl | _
  · cases hx
  · have hs : 0 < xs.sum := sum_pos_of_mem_pos h (by rintro rfl; cases hx)
    exact le_of_lt (div_pos (h x hx) hs)

/-! ### Association-list lookup helpers -/

theorem find?_append_some {α} {p : α → Bool} {l : List α} {a : α}
    (h : l.find? p = some a) (r : List α) : (l ++ r).find? p = some a := by
  rw [List.find?_append, h]
  rfl

theorem find?_append_none {α} {p : α → Bool} {l : List α}
    (h : l.find? p = none) (r : List α) : (l ++ r).find? p = r.find? p := by
  rw [List.find?_append, h]
  rfl

theorem probsLookup_mono {tb tb' : Tables} (hpre : tb.probs <+: tb'.probs)
    {c s : Nat} {d : List Rat} (h : tb.probsLookup c s = some d) :
    tb'.probsLookup c s = some d := by
  obtain ⟨t, ht⟩ := hpre
  unfold Tables.probsLookup at h ⊢
  obtain ⟨e, hfind, hval⟩ := Option.map_eq_some'.mp h
  rw [← ht, find?_append_some hfind, Option.map_some', hval]

theorem ftLookup_mono {tb tb' : Tables}
    (hpre : tb.firstTravel <+: tb'.firstTravel) {v : Nat} {d : List Rat}
    (h : tb.firstTravelLookup v = some d) : tb'.firstTravelLookup v = some d := by
  obtain ⟨t, ht⟩ := hpre
  unfold Tables.firstTravelLookup at h ⊢
  obtain ⟨e, hfind, hval⟩ := Option.map_eq_some'.mp h
  rw [← ht, find?_append_some hfind, Option.map_some', hval]

theorem probsLookup_append_isSome (tb : Tables) (c s : Nat) (d : List Rat) :
    (Tables.probsLookup { tb with probs := tb.probs ++ [((c, s), d)] } c s).isSome := by
  unfold Tables.probsLookup
  rcases hfind : tb.probs.find? (fun e => e.1 == (c, s)) with _ | e
  · rw [find?_append_none hfind]
    simp [List.find?]
  · rw [find?_append_some hfind]
    simp

theorem ftLookup_append_isSome_iff (tb : Tables) (c : Nat) (d : List Rat) (v : Nat) :
    (Tables.firstTravelLookup { tb with firstTravel := tb.firstTravel ++ [(c, d)] } v).isSome
      ↔ (tb.firstTravelLookup v).isSome ∨ v = c := by
  unfold Tables.firstTravelLookup
  rcases hfind : tb.firstTravel.find? (fun e => e.1 == v) with _ | e
  · rw [find?_append_none hfind, hfind]
    by_cases hvc : c = v
    · subst hvc
      simp [List.find?]
    · have hvc' : ¬ v = c := fun h => hvc h.symm
      have hbeq : (c == v) = false := by simp [hvc]
      simp [List.find?, hbeq, hvc']
  · rw [find?_append_some hfind, hfind]
    simp

/-! ### The precomputation loop fills the tables with the closed-form
values -/

theorem except_bind_ok {ε α β : Type} (a : α) (f : α → Except ε β) :
    (Except.ok a >>= f) = f a := rfl

theorem except_bind_error {ε α β : Type} (e : ε) (f : α → Except ε β) :
    ((Except.error e : Except ε α) >>= f) = Except.error e := rfl

theorem compute_prob_eq {g : PGraph} {prm : RandomWalkParameters}
    {source current t : Nat} {w : Rat}
    (hp : get_p prm current ≠ 0) (hq : get_q prm current ≠ 0)
    (hw : g.edgeBetween current t = some w) :
    compute_prob g source t (get_p prm current) (get_q prm current) w
      = .ok (specWeight g prm source current t) := by
  have hwb : weightBetween g current t = w := by simp [weightBetween, hw]
  unfold compute_prob specWeight pyDiv
  rw [hwb]
  split
  · simp [hp]
  · split
    · rfl
    · simp [hq]

theorem computeWeightsAux_eq {g : PGraph} {prm : RandomWalkParameters}
    {source current : Nat} (ftN : Bool)
    (hp : get_p prm current ≠ 0) (hq : get_q prm current ≠ 0) :
    ∀ ts : List Nat, (∀ t ∈ ts, (g.edgeBetween current t).isSome) →
    computeWeightsAux g prm source current ftN ts =
      .ok (ts.map (specWeight g prm source current),
           if ftN then ts.map (weightBetween g current) else []) := by
  intro ts
  induction ts with
  | nil =>
    intro _
    cases ftN <;> simp [computeWeightsAux]
  | cons t ts ih =>
    intro hmem
    obtain ⟨w, hw⟩ := Option.isSome_iff_exists.mp (hmem t (List.mem_cons_self t ts))
    have hwb : weightBetween g current t = w := by simp [weightBetween, hw]
    have hrest := ih (fun x hx => hmem x (List.mem_cons_of_mem _ hx))
    unfold computeWeightsAux
    simp only [hw, compute_prob_eq hp hq hw, hrest, except_bind_ok]
    cases ftN <;> simp [hwb]

theorem compute_unnormalized_weights_eq {g : PGraph}
    {prm : RandomWalkParameters} {source current : Nat}
    (hp : get_p prm current ≠ 0) (hq : get_q prm current ≠ 0)
    (ftDone : List Nat) :
    compute_unnormalized_weights g prm source current ftDone =
      .ok (specUWs g prm source current,
           if ftDone.contains current then [] else ftSpec g current) := by
  unfold compute_unnormalized_weights
  rw [computeWeightsAux_eq _ hp hq _ (fun t ht => edgeBetween_isSome_of_mem ht)]
  cases h : ftDone.contains current <;> simp [h, specUWs, ftSpec]

theorem precomputeInner_cons (g : PGraph) (prm : RandomWalkParameters)
    (s current : Nat) (rest : List Nat) (tb : Tables) :
    precomputeInner g prm s (current :: rest) tb
      = compute_unnormalized_weights g prm s current tb.ftDone >>= (fun r =>
          precomputeInner g prm s rest
            (if tb.ftDone.contains current then
              { tb with probs := tb.probs ++ [((current, s), normalize r.1)] }
             else
              { probs := tb.probs ++ [((current, s), normalize r.1)],
                firstTravel := tb.firstTravel ++ [(current, normalize r.2)],
                ftDone := tb.ftDone ++ [current] })) := rfl

theorem precomputeInner_ok {g : PGraph} {prm : RandomWalkParameters}
    (hp : ∀ v ∈ g.verts, 0 < get_p prm v)
    (hq : ∀ v ∈ g.verts, 0 < get_q prm v) (s : Nat) :
    ∀ (currents : List Nat) (tb : Tables), (∀ c ∈ currents, c ∈ g.verts) →
      TablesInv g prm tb →
      ∃ tb', precomputeInner g prm s currents tb = .ok tb' ∧
        TablesInv g prm tb' ∧
        tb.probs <+: tb'.probs ∧
        tb.firstTravel <+: tb'.firstTravel ∧
        (∀ v ∈ tb.ftDone, v ∈ tb'.ftDone) ∧
        (∀ c ∈ currents, (tb'.probsLookup c s).isSome ∧ c ∈ tb'.ftDone) := by
  intro currents
  induction currents with
  | nil =>
    intro tb _ hinv
    exact ⟨tb, rfl, hinv, List.prefix_rfl, List.prefix_rfl, fun _ h => h, by simp⟩
  | cons current rest ih =>
    intro tb hsub hinv
    have hcv : current ∈ g.verts := hsub current (List.mem_cons_self _ _)
    have hp0 : get_p prm current ≠ 0 := ne_of_gt (hp current hcv)
    have hq0 : get_q prm current ≠ 0 := ne_of_gt (hq current hcv)
    have hcw := @compute_unnormalized_weights_eq g prm s current hp0 hq0 tb.ftDone
    by_cases hdone : tb.ftDone.contains current = true
    · set tb1 : Tables :=
        { tb with probs := tb.probs ++ [((current, s), normalize (specUWs g prm s current))] }
        with htb1
      have hstep : precomputeInner g prm s (current :: rest) tb
          = precomputeInner g prm s rest tb1 := by
        rw [precomputeInner_cons, hcw, except_bind_ok]
        dsimp only
        rw [if_pos hdone, htb1]
      have hinv1 : TablesInv g prm tb1 := by
        refine ⟨?_, hinv.2.1, hinv.2.2⟩
        intro e he
        rcases List.mem_append.mp he with h | h
        · exact hinv.1 e h
        · rw [List.mem_singleton.mp h]
      obtain ⟨tb', heq, hinv', hppre, hfpre, hdmono, hrest⟩ :=
        ih tb1 (fun c hc => hsub c (List.mem_cons_of_mem _ hc)) hinv1
      refine ⟨tb', hstep.trans heq, hinv', ?_, ?_, ?_, ?_⟩
      · exact (List.prefix_append _ _).trans hppre
      · exact hfpre
      · exact hdmono
      · intro c hc
        rcases List.mem_cons.mp hc with rfl | hc
        · constructor
          · obtain ⟨d, hd⟩ := Option.isSome_iff_exists.mp
              (probsLookup_append_isSome tb c s (normalize (specUWs g prm s c)))
            exact Option.isSome_iff_exists.mpr ⟨d, probsLookup_mono hppre hd⟩
          · exact hdmono c (by simpa using hdone)
        · exact hrest c hc
    · set tb1 : Tables :=
        { probs := tb.probs ++ [((current, s), normalize (specUWs g prm s current))],
          firstTravel := tb.firstTravel ++ [(current, normalize (ftSpec g current))],
          ftDone := tb.ftDone ++ [current] } with htb1
      have hstep : precomputeInner g prm s (current :: rest) tb
          = precomputeInner g prm s rest tb1 := by
        rw [precomputeInner_cons, hcw, except_bind_ok]
        dsimp only
        rw [if_neg hdone, if_neg hdone, htb1]
      have hinv1 : TablesInv g prm tb1 := by
        refine ⟨?_, ?_, ?_⟩
        · intro e he
          rcases List.mem_append.mp he with h | h
          · exact hinv.1 e h
          · rw [List.mem_singleton.mp h]
        · intro e he
          rcases List.mem_append.mp he with h | h
          · exact hinv.2.1 e h
          · rw [List.mem_singleton.mp h]
        · intro v
          have hiff := ftLookup_append_isSome_iff tb current (normalize (ftSpec g current)) v
          constructor
          · intro hsome
            rcases hiff.mp hsome with h | rfl
            · exact List.mem_append_left _ ((hinv.2.2 v).mp h)
            · exact List.mem_append_right _ (List.mem_singleton.mpr rfl)
          · intro hmem
            rcases List.mem_append.mp hmem with h | h
            · exact hiff.mpr (Or.inl ((hinv.2.2 v).mpr h))
            · exact hiff.mpr (Or.inr (List.mem_singleton.mp h))
      obtain ⟨tb', heq, hinv', hppre, hfpre, hdmono, hrest⟩ :=
        ih tb1 (fun c hc => hsub c (List.mem_cons_of_mem _ hc)) hinv1
      refine ⟨tb', hstep.trans heq, hinv', ?_, ?_, ?_, ?_⟩
      · exact (List.prefix_append _ _).trans hppre
      · exact (List.prefix_append _ _).trans hfpre
      · intro v hv
        exact hdmono v (List.mem_append_left _ hv)
      · intro c hc
        rcases List.mem_cons.mp hc with rfl | hc
        · constructor
          · obtain ⟨d, hd⟩ := Option.isSome_iff_exists.mp
              (probsLookup_append_isSome tb c s (normalize (specUWs g prm s c)))
            exact Option.isSome_iff_exists.mpr ⟨d, probsLookup_mono hppre hd⟩
          · exact hdmono c (List.mem_append_right _ (List.mem_singleton.mpr rfl))
        · exact hrest c hc

theorem precomputeOuter_cons (g : PGraph) (prm : RandomWalkParameters)
    (s : Nat) (rest : List Nat) (tb : Tables) :
    precomputeOuter g prm (s :: rest) tb
      = precomputeInner g prm s (g.neighbors s) tb >>= (fun tb1 =>
          precomputeOuter g prm rest tb1) := rfl

theorem precomputeOuter_ok {g : PGraph} {prm : RandomWalkParameters}
    (hp : ∀ v ∈ g.verts, 0 < get_p prm v)
    (hq : ∀ v ∈ g.verts, 0 < get_q prm v) :
    ∀ (sources : List Nat) (tb : Tables), TablesInv g prm tb →
      ∃ tb', precomputeOuter g prm sources tb = .ok tb' ∧
        TablesInv g prm tb' ∧
        tb.probs <+: tb'.probs ∧
        tb.firstTravel <+: tb'.firstTravel ∧
        (∀ v ∈ tb.ftDone, v ∈ tb'.ftDone) ∧
        (∀ s ∈ sources, ∀ c ∈ g.neighbors s,
          (tb'.probsLookup c s).isSome ∧ c ∈ tb'.ftDone) := by
  intro sources
  induction sources with
  | nil =>
    intro tb hinv
    exact ⟨tb, rfl, hinv, List.prefix_rfl, List.prefix_rfl, fun _ h => h, by simp⟩
  | cons s rest ih =>
    intro tb hinv
    obtain ⟨tb1, heq1, hinv1, hppre1, hfpre1, hdmono1, hcur1⟩ :=
      precomputeInner_ok hp hq s (g.neighbors s) tb
        (fun c hc => neighbors_subset hc) hinv
    obtain ⟨tb', heq2, hinv', hppre2, hfpre2, hdmono2, hcur2⟩ := ih tb1 hinv1
    refine ⟨tb', ?_, hinv', hppre1.trans hppre2, hfpre1.trans hfpre2,
      fun v hv => hdmono2 v (hdmono1 v hv), ?_⟩
    · rw [precomputeOuter_cons, heq1, except_bind_ok, heq2]
    · intro x hx c hc
      rcases List.mem_cons.mp hx with rfl | hx
      · obtain ⟨hsome, hdone⟩ := hcur1 c hc
        obtain ⟨d, hd⟩ := Option.isSome_iff_exists.mp hsome
        exact ⟨Option.isSome_iff_exists.mpr ⟨d, probsLookup_mono hppre2 hd⟩,
          hdmono2 c hdone⟩
      · exact hcur2 x hx c hc

theorem precompute_probs_ok {g : PGraph} {prm : RandomWalkParameters}
    (hp : ∀ v ∈ g.verts, 0 < get_p prm v)
    (hq : ∀ v ∈ g.verts, 0 < get_q prm v) :
    ∃ tb, precompute_probs g prm = .ok tb ∧ TablesInv g prm tb ∧
      ∀ s ∈ g.verts, ∀ c ∈ g.neighbors s,
        (tb.probsLookup c s).isSome ∧ (tb.firstTravelLookup c).isSome := by
  have hinv0 : TablesInv g prm ({} : Tables) := by
    refine ⟨by simp, by simp, ?_⟩
    intro v
    simp [Tables.firstTravelLookup, List.find?]
  obtain ⟨tb, heq, hinv, _, _, _, hfacts⟩ :=
    precomputeOuter_ok hp hq g.verts {} hinv0
  refine ⟨tb, heq, hinv, ?_⟩
  intro s hs c hc
  obtain ⟨hsome, hdone⟩ := hfacts s hs c hc
  exact ⟨hsome, (hinv.2.2 c).mpr hdone⟩

/-! ### Closed-form values of the stored distributions -/

theorem probsLookup_spec {g : PGraph} {prm : RandomWalkParameters} {tb : Tables}
    (hp : ∀ v ∈ g.verts, 0 < get_p prm v)
    (hq : ∀ v ∈ g.verts, 0 < get_q prm v)
    (hpre : precompute_probs g prm = .ok tb)
    {s c : Nat} (hs : s ∈ g.verts) (hc : c ∈ g.neighbors s) :
    tb.probsLookup c s = some (normalize (specUWs g prm s c)) := by
  obtain ⟨tb0, heq, hinv, hfacts⟩ := precompute_probs_ok hp hq
  have htb : tb0 = tb := by
    rw [heq] at hpre
    exact Except.ok.inj hpre
  subst htb
  obtain ⟨hsome, _⟩ := hfacts s hs c hc
  obtain ⟨d, hd⟩ := Option.isSome_iff_exists.mp hsome
  unfold Tables.probsLookup at hd
  obtain ⟨e, hfind, hval⟩ := Option.map_eq_some'.mp hd
  have hkey : e.1 = (c, s) := by
    have := List.find?_some hfind
    simpa using this
  have hmem : e ∈ tb0.probs := List.mem_of_find?_eq_some hfind
  have hv := hinv.1 e hmem
  rw [hkey] at hv
  unfold Tables.probsLookup
  rw [hfind, Option.map_some', hv]

theorem ftLookup_spec {g : PGraph} {prm : RandomWalkParameters} {tb : Tables}
    (hp : ∀ v ∈ g.verts, 0 < get_p prm v)
    (hq : ∀ v ∈ g.verts, 0 < get_q prm v)
    (hpre : precompute_probs g prm = .ok tb)
    {v : Nat} (hv : v ∈ g.verts) (hne : g.neighbors v ≠ []) :
    tb.firstTravelLookup v = some (normalize (ftSpec g v)) := by
  obtain ⟨tb0, heq, hinv, hfacts⟩ := precompute_probs_ok hp hq
  have htb : tb0 = tb := by
    rw [heq] at hpre
    exact Except.ok.inj hpre
  subst htb
  obtain ⟨u, hu⟩ := List.exists_mem_of_ne_nil _ hne
  have hvu : v ∈ g.neighbors u := mem_neighbors_symm hv hu
  obtain ⟨_, hsome⟩ := hfacts u (neighbors_subset hu) v hvu
  obtain ⟨d, hd⟩ := Option.isSome_iff_exists.mp hsome
  unfold Tables.firstTravelLookup at hd
  obtain ⟨e, hfind, hval⟩ := Option.map_eq_some'.mp hd
  have hkey : e.1 = v := by
    have := List.find?_some hfind
    simpa using this
  have hmem : e ∈ tb0.firstTravel := List.mem_of_find?_eq_some hfind
  have hval2 := hinv.2.1 e hmem
  rw [hkey] at hval2
  unfold Tables.firstTravelLookup
  rw [hfind, Option.map_some', hval2]

/-! ### Positivity and validity of the stored distributions -/

theorem specUWs_pos {g : PGraph} {prm : RandomWalkParameters}
    {source current : Nat} (hw : ∀ e ∈ g.edges, 0 < e.2.2)
    (hp : 0 < get_p prm current) (hq : 0 < get_q prm current) :
    ∀ x ∈ specUWs g prm source current, 0 < x := by
  intro x hx
  obtain ⟨t, ht, rfl⟩ := List.mem_map.mp hx
  exact specWeight_pos hw hp hq ht

theorem ftSpec_pos {g : PGraph} {current : Nat}
    (hw : ∀ e ∈ g.edges, 0 < e.2.2) :
    ∀ x ∈ ftSpec g current, 0 < x := by
  intro x hx
  obtain ⟨t, ht, rfl⟩ := List.mem_map.mp hx
  exact weightBetween_pos hw ht

theorem specUWs_ne_nil {g : PGraph} {prm : RandomWalkParameters}
    {source current : Nat} (hne : g.neighbors current ≠ []) :
    specUWs g prm source current ≠ [] := by
  unfold specUWs
  simpa using hne

theorem ftSpec_ne_nil {g : PGraph} {current : Nat}
    (hne : g.neighbors current ≠ []) : ftSpec g current ≠ [] := by
  unfold ftSpec
  simpa using hne

/-! ### Success and length of the biased walker -/

theorem npRandomChoice_ok {xs : List Nat} {l : List Rat} (k : Nat)
    (hne : xs ≠ []) (hlen : l.length = xs.length)
    (hnn : ∀ x ∈ l, 0 ≤ x) (hsum : l.sum = 1) :
    npRandomChoice xs (some l) k = .ok (xs.getD (k % xs.length) 0)
      ∧ xs.getD (k % xs.length) 0 ∈ xs := by
  have hlen0 : xs.length ≠ 0 := fun h => hne (List.length_eq_zero.mp h)
  have hlt : k % xs.length < xs.length := Nat.mod_lt _ (Nat.pos_of_ne_zero hlen0)
  constructor
  · unfold npRandomChoice
    rw [if_neg hlen0]
    dsimp only
    rw [if_pos ⟨hlen, hnn, hsum⟩]
  · rw [List.getD_eq_getElem _ _ hlt]
    exact List.getElem_mem hlt

theorem normalizedSpecUWs_valid {g : PGraph} {prm : RandomWalkParameters}
    {dt t : Nat} (hw : ∀ e ∈ g.edges, 0 < e.2.2)
    (hpt : 0 < get_p prm t) (hqt : 0 < get_q prm t)
    (hne : g.neighbors t ≠ []) :
    (normalize (specUWs g prm dt t)).length = (g.neighbors t).length ∧
    (∀ x ∈ normalize (specUWs g prm dt t), 0 ≤ x) ∧
    (normalize (specUWs g prm dt t)).sum = 1 := by
  have hpos := @specUWs_pos g prm dt t hw hpt hqt
  refine ⟨?_, normalize_nonneg hpos, normalize_sum (sum_pos_of_mem_pos hpos (specUWs_ne_nil hne))⟩
  rw [normalize_length]
  simp [specUWs]

theorem normalizedFtSpec_valid {g : PGraph} {v : Nat}
    (hw : ∀ e ∈ g.edges, 0 < e.2.2) (hne : g.neighbors v ≠ []) :
    (normalize (ftSpec g v)).length = (g.neighbors v).length ∧
    (∀ x ∈ normalize (ftSpec g v), 0 ≤ x) ∧
    (normalize (ftSpec g v)).sum = 1 := by
  have hpos := @ftSpec_pos g v hw
  refine ⟨?_, normalize_nonneg hpos, normalize_sum (sum_pos_of_mem_pos hpos (ftSpec_ne_nil hne))⟩
  rw [normalize_length]
  simp [ftSpec]

theorem biasedWalkLoop_ok_fuel {g : PGraph} {prm : RandomWalkParameters}
    {tb : Tables} (hw : ∀ e ∈ g.edges, 0 < e.2.2)
    (hp : ∀ v ∈ g.verts, 0 < get_p prm v)
    (hq : ∀ v ∈ g.verts, 0 < get_q prm v)
    (hpre : precompute_probs g prm = .ok tb) (wl : Nat) (c : Nat → Nat) :
    ∀ (n pl dt t : Nat), wl - pl ≤ n → dt ∈ g.verts → t ∈ g.neighbors dt →
      ∃ w, biasedWalkLoop g tb wl c dt t pl = .ok w := by
  intro n
  induction n with
  | zero =>
    intro pl dt t hfuel _ _
    refine ⟨[], ?_⟩
    unfold biasedWalkLoop
    rw [dif_neg (by omega)]
  | succ n ih =>
    intro pl dt t hfuel hdt hts
    by_cases hlt : pl < wl
    · by_cases hemp : (g.neighbors t).isEmpty
      · refine ⟨[], ?_⟩
        unfold biasedWalkLoop
        rw [dif_pos hlt, if_pos hemp]
      · have hne : g.neighbors t ≠ [] := by
          simpa [List.isEmpty_iff] using hemp
        have htv : t ∈ g.verts := neighbors_subset hts
        have hlk : tb.probsLookup t dt = some (normalize (specUWs g prm dt t)) :=
          probsLookup_spec hp hq hpre hdt hts
        obtain ⟨hlen, hnn, hsum⟩ :=
          @normalizedSpecUWs_valid g prm dt t hw (hp t htv) (hq t htv) hne
        obtain ⟨hok, hmem⟩ := npRandomChoice_ok (c pl) hne hlen hnn hsum
        obtain ⟨w', hw'⟩ := ih (pl + 1) t _ (by omega) htv hmem
        refine ⟨(g.neighbors t).getD (c pl % (g.neighbors t).length) 0 :: w', ?_⟩
        unfold biasedWalkLoop
        rw [dif_pos hlt, if_neg (by simp [hemp])]
        simp only [hlk, hok, hw']
    · refine ⟨[], ?_⟩
      unfold biasedWalkLoop
      rw [dif_neg hlt]

theorem biasedWalkLoop_ok {g : PGraph} {prm : RandomWalkParameters}
    {tb : Tables} (hw : ∀ e ∈ g.edges, 0 < e.2.2)
    (hp : ∀ v ∈ g.verts, 0 < get_p prm v)
    (hq : ∀ v ∈ g.verts, 0 < get_q prm v)
    (hpre : precompute_probs g prm = .ok tb) (wl : Nat) (c : Nat → Nat)
    (pl dt t : Nat) (hdt : dt ∈ g.verts) (hts : t ∈ g.neighbors dt) :
    ∃ w, biasedWalkLoop g tb wl c dt t pl = .ok w :=
  biasedWalkLoop_ok_fuel hw hp hq hpre wl c (wl - pl) pl dt t le_rfl hdt hts

theorem biasedWalk_ok {g : PGraph} {prm : RandomWalkParameters}
    {tb : Tables} (hw : ∀ e ∈ g.edges, 0 < e.2.2)
    (hp : ∀ v ∈ g.verts, 0 < get_p prm v)
    (hq : ∀ v ∈ g.verts, 0 < get_q prm v)
    (hpre : precompute_probs g prm = .ok tb)
    (hmpl : 2 ≤ prm.max_path_length) {v : Nat} (hv : v ∈ g.verts)
    (hne : g.neighbors v ≠ []) (hskip : biased_check prm v = false)
    (c : Nat → Nat) :
    ∃ t w, biasedWalk g tb prm v c = .ok (v :: t :: w) ∧ t ∈ g.neighbors v := by
  have hft : tb.firstTravelLookup v = some (normalize (ftSpec g v)) :=
    ftLookup_spec hp hq hpre hv hne
  obtain ⟨hlen, hnn, hsum⟩ := normalizedFtSpec_valid hw hne
  obtain ⟨hok, hmem⟩ := npRandomChoice_ok (c 1) hne hlen hnn hsum
  obtain ⟨w, hwk⟩ := biasedWalkLoop_ok hw hp hq hpre
    (effectiveWalkLength prm v) c 2 v _ hv hmem
  refine ⟨(g.neighbors v).getD (c 1 % (g.neighbors v).length) 0, w, ?_, hmem⟩
  unfold biasedWalk
  rw [if_neg (by omega), if_neg (by simp [hskip]), hft]
  simp only [hok, hwk]

theorem biasedWalkLoop_length {g : PGraph} {tb : Tables} {wl : Nat}
    {c : Nat → Nat} :
    ∀ (n pl dt t : Nat) (w : List Nat), wl - pl ≤ n →
      biasedWalkLoop g tb wl c dt t pl = .ok w → w.length ≤ wl - pl := by
  intro n
  induction n with
  | zero =>
    intro pl dt t w hfuel h
    unfold biasedWalkLoop at h
    rw [dif_neg (by omega)] at h
    cases h
    simp
  | succ n ih =>
    intro pl dt t w hfuel h
    by_cases hlt : pl < wl
    · unfold biasedWalkLoop at h
      rw [dif_pos hlt] at h
      by_cases hemp : (g.neighbors t).isEmpty
      · rw [if_pos hemp] at h
        cases h
        simp
      · rw [if_neg (by simp [hemp])] at h
        rcases hlk : tb.probsLookup t dt with _ | probabilities
        · simp only [hlk] at h
          cases h
        · simp only [hlk] at h
          rcases hnp : npRandomChoice (g.neighbors t) (some probabilities) (c pl) with e | t'
          · simp only [hnp] at h
            cases h
          · simp only [hnp] at h
            rcases hrec : biasedWalkLoop g tb wl c t t' (pl + 1) with e | w'
            · simp only [hrec] at h
              cases h
            · simp only [hrec] at h
              cases h
              have hlen := ih (pl + 1) t t' w' (by omega) hrec
              simp only [List.length_cons]
              omega
    · unfold biasedWalkLoop at h
      rw [dif_neg hlt] at h
      cases h
      simp

theorem standardWalkAux_length {g : PGraph} {mpl : Nat} {c : Nat → Nat} :
    ∀ (n pl tail : Nat) (w : List Nat), mpl - pl ≤ n →
      standardWalkAux g mpl c tail pl = .ok w → w.length ≤ mpl - pl := by
  intro n
  induction n with
  | zero =>
    intro pl tail w hfuel h
    unfold standardWalkAux at h
    rw [dif_neg (by omega)] at h
    cases h
    simp
  | succ n ih =>
    intro pl tail w hfuel h
    by_cases hcond : pl < mpl ∧ g.neighborhood_size tail ≠ 0
    · unfold standardWalkAux at h
      rw [dif_pos hcond] at h
      rcases hch : randomChoice (g.neighbors tail) (c pl) with e | t
      · simp only [hch] at h
        cases h
      · simp only [hch] at h
        rcases hrec : standardWalkAux g mpl c t (pl + 1) with e | w'
        · simp only [hrec] at h
          cases h
        · simp only [hrec] at h
          cases h
          have hlen := ih (pl + 1) t w' (by omega) hrec
          have hlt := hcond.1
          simp only [List.length_cons]
          omega
    · unfold standardWalkAux at h
      rw [dif_neg hcond] at h
      cases h
      simp

theorem restartingWalkAux_length {g : PGraph} {mpl : Nat} {rp : Rat}
    {u : Nat → Rat} {c : Nat → Nat} {start : Nat} :
    ∀ (n pl tail : Nat) (w : List Nat), mpl - pl ≤ n →
      restartingWalkAux g mpl rp u c start tail pl = .ok w →
      w.length ≤ mpl - pl := by
  intro n
  induction n with
  | zero =>
    intro pl tail w hfuel h
    unfold restartingWalkAux at h
    rw [dif_neg (by omega)] at h
    cases h
    simp
  | succ n ih =>
    intro pl tail w hfuel h
    by_cases hcond : pl < mpl ∧ g.neighborhood_size tail ≠ 0
    · unfold restartingWalkAux at h
      rw [dif_pos hcond] at h
      rcases hch : (if rp ≤ u pl then Except.ok start
          else randomChoice (g.neighbors tail) (c pl)) with e | t
      · simp only [hch] at h
        cases h
      · simp only [hch] at h
        rcases hrec : restartingWalkAux g mpl rp u c start t (pl + 1) with e | w'
        · simp only [hrec] at h
          cases h
        · simp only [hrec] at h
          cases h
          have hlen := ih (pl + 1) t w' (by omega) hrec
          have hlt := hcond.1
          simp only [List.length_cons]
          omega
    · unfold restartingWalkAux at h
      rw [dif_neg hcond] at h
      cases h
      simp

/-! ### Evaluation of the precomputation on the concrete instances -/

theorem pairTables_eq : precompute_probs pairGraph overridePrm = .ok pairTables := by
  simp +decide [precompute_probs, precomputeOuter, precomputeInner,
    compute_unnormalized_weights, computeWeightsAux, compute_prob, pyDiv,
    get_p, get_q, lookupStrategy, normalize, PGraph.neighbors,
    PGraph.adjacent, PGraph.edgeBetween, PGraph.hasStoredEdge,
    pairGraph, overridePrm, pairTables, List.find?, List.filter,
    List.contains, List.elem, except_bind_ok, except_bind_error,
    Option.map, Option.getD]

theorem unweightedPairTables_eq :
    precompute_probs pairGraph unweightedPrm = .ok pairTables := by
  simp +decide [precompute_probs, precomputeOuter, precomputeInner,
    compute_unnormalized_weights, computeWeightsAux, compute_prob, pyDiv,
    get_p, get_q, lookupStrategy, normalize, PGraph.neighbors,
    PGraph.adjacent, PGraph.edgeBetween, PGraph.hasStoredEdge,
    pairGraph, unweightedPrm, pairTables, List.find?, List.filter,
    List.contains, List.elem, except_bind_ok, except_bind_error,
    Option.map, Option.getD]

theorem triangleTables_eq :
    precompute_probs triangleGraph trianglePrm = .ok triangleTables := by
  simp +decide [precompute_probs, precomputeOuter, precomputeInner,
    compute_unnormalized_weights, computeWeightsAux, compute_prob, pyDiv,
    get_p, get_q, lookupStrategy, normalize, PGraph.neighbors,
    PGraph.adjacent, PGraph.edgeBetween, PGraph.hasStoredEdge,
    triangleGraph, trianglePrm, triangleTables, List.find?, List.filter,
    List.contains, List.elem, except_bind_ok, except_bind_error,
    Option.map, Option.getD]
  norm_num

theorem negativeTables_eq :
    precompute_probs triangleGraph negativePPrm = .ok negativeTables := by
  simp +decide [precompute_probs, precomputeOuter, precomputeInner,
    compute_unnormalized_weights, computeWeightsAux, compute_prob, pyDiv,
    get_p, get_q, lookupStrategy, normalize, PGraph.neighbors,
    PGraph.adjacent, PGraph.edgeBetween, PGraph.hasStoredEdge,
    triangleGraph, negativePPrm, negativeTables, List.find?, List.filter,
    List.contains, List.elem, except_bind_ok, except_bind_error,
    Option.map, Option.getD]
  norm_num

theorem zeroPTables_eq :
    precompute_probs triangleGraph { p := 0 } = .error .zeroDivisionError := by
  simp +decide [precompute_probs, precomputeOuter, precomputeInner,
    compute_unnormalized_weights, computeWeightsAux, compute_prob, pyDiv,
    get_p, get_q, lookupStrategy, normalize, PGraph.neighbors,
    PGraph.adjacent, PGraph.edgeBetween, PGraph.hasStoredEdge,
    triangleGraph, List.find?, List.filter,
    List.contains, List.elem, except_bind_ok, except_bind_error,
    Option.map, Option.getD]

theorem skipTables_eq : precompute_probs triangleGraph skipPrm = .ok skipTables := by
  simp +decide [precompute_probs, precomputeOuter, precomputeInner,
    compute_unnormalized_weights, computeWeightsAux, compute_prob, pyDiv,
    get_p, get_q, lookupStrategy, normalize, PGraph.neighbors,
    PGraph.adjacent, PGraph.edgeBetween, PGraph.hasStoredEdge,
    triangleGraph, skipPrm, skipTables, List.find?, List.filter,
    List.contains, List.elem, except_bind_ok, except_bind_error,
    Option.map, Option.getD]
  norm_num

theorem isolatedTables_eq :
    precompute_probs isolatedGraph { max_path_length := 2 } = .ok isolatedTables := by
  simp +decide [precompute_probs, precomputeOuter, precomputeInner,
    compute_unnormalized_weights, computeWeightsAux, compute_prob, pyDiv,
    get_p, get_q, lookupStrategy, normalize, PGraph.neighbors,
    PGraph.adjacent, PGraph.edgeBetween, PGraph.hasStoredEdge,
    isolatedGraph, isolatedTables, List.find?, List.filter,
    List.contains, List.elem, except_bind_ok, except_bind_error,
    Option.map, Option.getD]

/-! ### Counting walks in the corpus -/

theorem length_filter_not {α : Type} (pp : α → Bool) (l : List α) :
    (l.filter (fun x => !pp x)).length = l.length - (l.filter pp).length := by
  induction l with
  | nil => simp
  | cons x xs ih =>
    have hle := List.length_filter_le pp xs
    by_cases hx : pp x = true
    · simp [List.filter_cons, hx, ih]
    · have hle := List.length_filter_le pp xs
      simp [List.filter_cons, hx, ih]
      omega

theorem map_filter_count {prm : RandomWalkParameters}
    (walkOf : Nat → Except PyErr (List Nat)) :
    ∀ l : List Nat,
      (∀ v ∈ l, (biased_check prm v = true → walkOf v = .ok []) ∧
                (biased_check prm v = false → walkOf v ≠ .ok [])) →
      ((l.map walkOf).filter (fun w => decide (w ≠ .ok []))).length
        = (l.filter (fun v => !biased_check prm v)).length := by
  intro l
  induction l with
  | nil => intro _; simp
  | cons v vs ih =>
    intro hv
    have hhead := hv v (List.mem_cons_self _ _)
    have htail := ih (fun x hx => hv x (List.mem_cons_of_mem _ hx))
    by_cases hb : biased_check prm v = true
    · have hemp := hhead.1 hb
      simp [List.filter_cons, hemp, hb]
      simpa using htail
    · have hne := hhead.2 (by simpa using hb)
      simp [List.filter_cons, hb, hne]
      simpa using htail

theorem flatten_filter_const {α : Type} (pred : α → Bool) (K : Nat) :
    ∀ (ls : List (List α)), (∀ l ∈ ls, (l.filter pred).length = K) →
      (ls.flatten.filter pred).length = ls.length * K := by
  intro ls
  induction ls with
  | nil => intro _; simp
  | cons l ls ih =>
    intro h
    have hl := h l (List.mem_cons_self _ _)
    have hls := ih (fun x hx => h x (List.mem_cons_of_mem _ hx))
    simp only [List.flatten_cons, List.filter_append, List.length_append,
      List.length_cons, hl, hls, Nat.succ_mul]
    omega

theorem nat_mul_sub (n a b : Nat) (h : b ≤ a) : n * (a - b) = n * a - n * b := by
  obtain ⟨c, rfl⟩ := Nat.exists_eq_add_of_le h
  rw [Nat.add_sub_cancel_left, Nat.mul_add]
  omega

theorem biased_check_iff (prm : RandomWalkParameters) (v : Nat) :
    biased_check prm v = true ↔
      ∃ s, lookupStrategy prm v = some s ∧
        ∃ nw, s.num_walks = some nw ∧ nw ≤ prm.number_paths := by
  unfold biased_check
  rcases hst : lookupStrategy prm v with _ | s
  · simp
  · rcases hnw : s.num_walks with _ | nw
    · simp [hnw]
    · simp [hnw]

theorem get_walks_filter_length (verts : List Nat) (npaths : Nat)
    (shuffleFn : Nat → List Nat → List Nat)
    (walkOf : Nat → Nat → Except PyErr (List Nat)) (K : Nat)
    (hper : ∀ rep, ((verts.map (fun v => walkOf rep v)).filter
      (fun w => decide (w ≠ .ok []))).length = K) :
    ((get_walks verts npaths shuffleFn walkOf).filter
        (fun w => decide (w ≠ .ok []))).length = npaths * K := by
  have h := flatten_filter_const (fun w => decide (w ≠ Except.ok [])) K
      ((List.range npaths).map (fun rep => verts.map (fun v => walkOf rep v)))
      (by
        intro l hl
        obtain ⟨rep, _, rfl⟩ := List.mem_map.mp hl
        exact hper rep)
  simpa [get_walks] using h

/-- Concrete runs of the walkers used by several closed statements. -/
theorem biasedPairWalk_eq :
    biasedWalk pairGraph pairTables overridePrm 0 (fun _ => 0) = .ok [0, 1] := by
  simp +decide [biasedWalk, biasedWalkLoop, npRandomChoice, biased_check,
    effectiveWalkLength, lookupStrategy, Tables.probsLookup,
    Tables.firstTravelLookup, pairTables, overridePrm,
    PGraph.neighbors, PGraph.adjacent, PGraph.edgeBetween, pairGraph,
    List.find?, List.filter, Option.map, Option.getD]

theorem standardPairWalk_eq :
    standardWalk pairGraph { max_path_length := 1 } 0 (fun _ => 0) = .ok [0] := by
  simp +decide [standardWalk, standardWalkAux, randomChoice,
    PGraph.neighborhood_size, PGraph.neighbors, PGraph.adjacent,
    PGraph.edgeBetween, pairGraph, List.find?, List.filter]

/-! ## Claims -/

/-- Claim C1, counterexample: the triangle check `es.select(_source=u,
_target=x)` is orientation-sensitive. In the triangle A–B–C with the A–C
edge stored as `(0, 2)`, take current v = B = 1, previous u = C = 2 and
neighbor x = A = 0: an edge joins u and x and x ≠ u, yet the computed
unnormalized weight is `edgeWeight/q = 1/2`, not the claimed unbiased
`edgeWeight = 1`, and the stored distribution for (B, previous C) is
`[1/5, 4/5]`, not the `[1/3, 2/3]` the claimed rule would give. -/
theorem claim1_counterexample :
    triangleGraph.adjacent 2 0 = true ∧ (0 : Nat) ≠ 2 ∧
    compute_prob triangleGraph 2 0 (get_p trianglePrm 1) (get_q trianglePrm 1) 1
      = .ok (1/2) ∧
    ¬ ((1 : Rat)/2 = 1) ∧
    precompute_probs triangleGraph trianglePrm = .ok triangleTables ∧
    triangleTables.probsLookup 1 2 = some [1/5, 4/5] ∧
    ¬ (([1/5, 4/5] : List Rat) = [1/3, 2/3]) := by
  refine ⟨by decide, by decide, ?_, by norm_num, triangleTables_eq, rfl, by norm_num⟩
  norm_num [compute_prob, pyDiv, get_p, get_q, lookupStrategy, trianglePrm,
    PGraph.hasStoredEdge, triangleGraph, List.find?, List.any]

/-- Claim C1 (amended): for every pair (current v, previous u) with an
edge u–v and every neighbor x of v, the unnormalized weight is
`edgeWeight(v,x)/p(v)` when `x = u`, `edgeWeight(v,x)` when an edge is
STORED WITH ORIENTATION u → x (`es.select(_source=u, _target=x)` matches
the stored source and target even on undirected graphs), and
`edgeWeight(v,x)/q(v)` otherwise, with the stored-orientation branch
taking priority over the q branch; the stored distribution is the
normalization of these weights. In the triangle with the A–C edge stored
as (A, C) and p = 1/2, q = 2, the distribution for (B, previous A) is
`[2/3, 1/3]` as the claim's example states. -/
theorem claim1_second_order_weights {g : PGraph} {prm : RandomWalkParameters}
    {tb : Tables}
    (hp : ∀ v ∈ g.verts, 0 < get_p prm v)
    (hq : ∀ v ∈ g.verts, 0 < get_q prm v)
    (hpre : precompute_probs g prm = .ok tb) :
    (∀ s ∈ g.verts, ∀ v ∈ g.neighbors s,
      tb.probsLookup v s = some (normalize ((g.neighbors v).map (fun x =>
        if x = s then weightBetween g v x / get_p prm v
        else if g.hasStoredEdge s x then weightBetween g v x
        else weightBetween g v x / get_q prm v)))) ∧
    triangleTables.probsLookup 1 0 = some [2/3, 1/3] := by
  constructor
  · intro s hs v hv
    have h := probsLookup_spec hp hq hpre hs hv
    simpa [specUWs, specWeight] using h
  · rfl

/-- Claim C1, witness: the amended rule instantiated on the triangle at
(current B = 1, previous C = 2), together with the claimed (B, previous
A) distribution. -/
theorem claim1_witness :
    triangleTables.probsLookup 1 2
      = some (normalize ((triangleGraph.neighbors 1).map (fun x =>
          if x = 2 then weightBetween triangleGraph 1 x / get_p trianglePrm 1
          else if triangleGraph.hasStoredEdge 2 x then weightBetween triangleGraph 1 x
          else weightBetween triangleGraph 1 x / get_q trianglePrm 1))) ∧
    triangleTables.probsLookup 1 0 = some [2/3, 1/3] := by
  have h := claim1_second_order_weights
    (fun v _ => by norm_num [get_p, lookupStrategy, trianglePrm, List.find?])
    (fun v _ => by norm_num [get_q, lookupStrategy, trianglePrm, List.find?])
    triangleTables_eq
  exact ⟨h.1 2 (by decide) 1 (by decide), h.2⟩

/-- Claim C2, divergence: the restarting walker restarts when
`restart_probability <= random.random()`, i.e. with probability
1 − restart_probability, the complement of the claim. With
`restart_probability = 0` (the default) every step returns the start
vertex (the claim says it should never restart); with
`restart_probability = 1` and a draw of 1/2 the walker steps to a
neighbor (the claim says it should always restart). -/
theorem claim2_restart_inversion :
    restartingWalk pairGraph
        { max_path_length := 3, restart_probability := 0 } 0
        (fun _ => 1/2) (fun _ => 0) = .ok [0, 0, 0] ∧
    restartingWalk pairGraph
        { max_path_length := 3, restart_probability := 1 } 0
        (fun _ => 1/2) (fun _ => 0) = .ok [0, 1, 0] := by
  constructor
  · simp +decide [restartingWalk, restartingWalkAux, randomChoice,
      PGraph.neighborhood_size, PGraph.neighbors, PGraph.adjacent,
      PGraph.edgeBetween, pairGraph, List.find?, List.filter]
  · simp +decide [restartingWalk, restartingWalkAux, randomChoice,
      PGraph.neighborhood_size, PGraph.neighbors, PGraph.adjacent,
      PGraph.edgeBetween, pairGraph, List.find?, List.filter]
    norm_num

/-- Claim C3, divergence: on an isolated start vertex (here vertex 0 of
`isolatedGraph`, whose neighbor list is empty) with `max_path_length =
2`, the uniform walker raises IndexError (igraph's `neighborhood_size`
counts the vertex itself, so the loop body runs and `random.choice`
receives an empty list), the biased walker raises ValueError
(`np.random.choice` on an empty neighbor array), and the restarting
walker (restart probability 0) emits the start vertex twice — never the
claimed length-1 walk. -/
theorem claim3_isolated_vertex_errors :
    isolatedGraph.neighbors 0 = [] ∧
    standardWalk isolatedGraph { max_path_length := 2 } 0 (fun _ => 0)
      = .error .indexError ∧
    precompute_probs isolatedGraph { max_path_length := 2 } = .ok isolatedTables ∧
    biasedWalk isolatedGraph isolatedTables { max_path_length := 2 } 0 (fun _ => 0)
      = .error .valueError ∧
    restartingWalk isolatedGraph
      { max_path_length := 2, restart_probability := 0 } 0
      (fun _ => 1/2) (fun _ => 0) = .ok [0, 0] := by
  refine ⟨by decide, ?_, isolatedTables_eq, ?_, ?_⟩
  · simp +decide [standardWalk, standardWalkAux, randomChoice,
      PGraph.neighborhood_size, PGraph.neighbors, PGraph.adjacent,
      PGraph.edgeBetween, isolatedGraph, List.find?, List.filter]
  · simp +decide [biasedWalk, biasedWalkLoop, npRandomChoice, biased_check,
      effectiveWalkLength, lookupStrategy, Tables.probsLookup,
      Tables.firstTravelLookup, isolatedTables,
      PGraph.neighbors, PGraph.adjacent, PGraph.edgeBetween, isolatedGraph,
      List.find?, List.filter, Option.map, Option.getD]
  · simp +decide [restartingWalk, restartingWalkAux, randomChoice,
      PGraph.neighborhood_size, PGraph.neighbors, PGraph.adjacent,
      PGraph.edgeBetween, isolatedGraph, List.find?, List.filter]

/-- Claim C4, counterexample: with a resolved p of −2 (≤ 0) the
precomputation does not fail at all — it completes and returns tables,
so no `InvalidParameter` (or any) error is raised. -/
theorem claim4_counterexample :
    get_p negativePPrm 0 = -2 ∧ ((-2 : Rat) ≤ 0) ∧
    node2vecInit triangleGraph negativePPrm = .ok (triangleGraph, negativeTables) := by
  refine ⟨?_, by norm_num, ?_⟩
  · norm_num [get_p, lookupStrategy, negativePPrm, List.find?]
  · have h := negativeTables_eq
    unfold negativePPrm at h
    simp [node2vecInit, negativePPrm, Except.map, h]

/-- Claim C4 (amended): the code performs no p/q validation. A resolved
p = 0 makes the table build fail with a ZeroDivisionError (not
InvalidParameter) when the return branch divides by it; a negative
resolved p raises nothing and stores negative unnormalized entries in
the transition table. -/
theorem claim4_no_validation :
    node2vecInit triangleGraph { p := 0 } = .error .zeroDivisionError ∧
    node2vecInit triangleGraph negativePPrm = .ok (triangleGraph, negativeTables) ∧
    negativeTables.probsLookup 1 0 = some [-1, 2] ∧ ((-1 : Rat) < 0) := by
  refine ⟨?_, ?_, rfl, by norm_num⟩
  · simp [node2vecInit, zeroPTables_eq, Except.map]
  · have h := negativeTables_eq
    unfold negativePPrm at h
    simp [node2vecInit, negativePPrm, Except.map, h]

/-- Claim C5: a vertex produces an empty walk exactly when its
sampling-strategy override has a `num_walks` value ≤ the global
`number_paths` (the comparison is against the global repeat count, so
the rule is independent of the repetition index — a vertex is always or
never skipped), and the number of non-empty walks the orchestrator
yields is `number_paths × vertex_count` minus `number_paths ×` the number
of skipped vertices. -/
theorem claim5_skip_rule_and_count {g : PGraph} {prm : RandomWalkParameters}
    {tb : Tables} (hw : ∀ e ∈ g.edges, 0 < e.2.2)
    (hp : ∀ v ∈ g.verts, 0 < get_p prm v)
    (hq : ∀ v ∈ g.verts, 0 < get_q prm v)
    (hpre : precompute_probs g prm = .ok tb)
    (hmpl : 2 ≤ prm.max_path_length)
    (hiso : ∀ v ∈ g.verts, g.neighbors v ≠ [])
    (shuffleFn : Nat → List Nat → List Nat)
    (streams : Nat → Nat → Nat → Nat) :
    (∀ rep v, v ∈ g.verts →
      (biasedWalk g tb prm v (streams rep v) = .ok [] ↔
        ∃ s, lookupStrategy prm v = some s ∧
          ∃ nw, s.num_walks = some nw ∧ nw ≤ prm.number_paths)) ∧
    ((biasedGetWalks g tb prm shuffleFn streams).filter
        (fun w => decide (w ≠ .ok []))).length
      = prm.number_paths * g.verts.length
        - prm.number_paths * (g.verts.filter (fun v => biased_check prm v)).length := by
  have hdich : ∀ (c : Nat → Nat), ∀ v ∈ g.verts,
      (biased_check prm v = true → biasedWalk g tb prm v c = .ok []) ∧
      (biased_check prm v = false → biasedWalk g tb prm v c ≠ .ok []) := by
    intro c v hvmem
    constructor
    · intro hb
      unfold biasedWalk
      rw [if_neg (by omega), if_pos hb]
    · intro hb hcontra
      obtain ⟨t, w, hwalk, _⟩ :=
        biasedWalk_ok hw hp hq hpre hmpl hvmem (hiso v hvmem) hb c
      rw [hwalk] at hcontra
      cases hcontra
  constructor
  · intro rep v hvmem
    rw [← biased_check_iff]
    constructor
    · intro hok
      by_contra hb
      exact (hdich (streams rep v) v hvmem).2 (by simpa using hb) hok
    · intro hb
      exact (hdich (streams rep v) v hvmem).1 hb
  · unfold biasedGetWalks
    have hper : ∀ rep,
        ((g.verts.map (fun v => biasedWalk g tb prm v (streams rep v))).filter
          (fun w => decide (w ≠ .ok []))).length
        = (g.verts.filter (fun v => !biased_check prm v)).length :=
      fun rep => map_filter_count _ g.verts (fun v hv => hdich (streams rep v) v hv)
    have htot := get_walks_filter_length g.verts prm.number_paths shuffleFn
      (fun rep v => biasedWalk g tb prm v (streams rep v))
      ((g.verts.filter (fun v => !biased_check prm v)).length) hper
    rw [htot, length_filter_not, nat_mul_sub _ _ _ (List.length_filter_le _ _)]

/-- Claim C5, witness: the triangle with two repetitions and vertex 0
skipped by its `num_walks = 1 ≤ 2` override yields
`2·3 − 2·1 = 4` non-empty walks, and vertex 0's walk is empty iff its
override satisfies the rule. -/
theorem claim5_witness :
    ((biasedGetWalks triangleGraph skipTables skipPrm (fun _ l => l)
        (fun _ _ _ => 0)).filter (fun w => decide (w ≠ .ok []))).length
      = skipPrm.number_paths * triangleGraph.verts.length
        - skipPrm.number_paths
          * (triangleGraph.verts.filter (fun v => biased_check skipPrm v)).length ∧
    (biasedWalk triangleGraph skipTables skipPrm 0 (fun _ => 0) = .ok [] ↔
      ∃ s, lookupStrategy skipPrm 0 = some s ∧
        ∃ nw, s.num_walks = some nw ∧ nw ≤ skipPrm.number_paths) := by
  have h := @claim5_skip_rule_and_count triangleGraph skipPrm skipTables
    (by intro e he; fin_cases he <;> norm_num)
    (fun v hv => by
      fin_cases hv <;>
        simp +decide [get_p, lookupStrategy, skipPrm, List.find?, Option.map,
          Option.getD])
    (fun v hv => by
      fin_cases hv <;>
        simp +decide [get_q, lookupStrategy, skipPrm, List.find?, Option.map,
          Option.getD])
    skipTables_eq
    (by norm_num [skipPrm])
    (by decide)
    (fun _ l => l) (fun _ _ _ => 0)
  exact ⟨h.2, h.1 0 0 (by decide)⟩

/-- Claim C6: after a successful precomputation with positive edge
weights and positive resolved p/q, every stored first-travel
distribution of a vertex with neighbors sums to exactly 1, and every
stored second-order distribution for an adjacent (current, previous)
pair sums to exactly 1 (exact rational arithmetic). -/
theorem claim6_distributions_sum_to_one {g : PGraph}
    {prm : RandomWalkParameters} {tb : Tables}
    (hw : ∀ e ∈ g.edges, 0 < e.2.2)
    (hp : ∀ v ∈ g.verts, 0 < get_p prm v)
    (hq : ∀ v ∈ g.verts, 0 < get_q prm v)
    (hpre : precompute_probs g prm = .ok tb) :
    (∀ v ∈ g.verts, g.neighbors v ≠ [] →
      ∃ d, tb.firstTravelLookup v = some d ∧ d.sum = 1) ∧
    (∀ s ∈ g.verts, ∀ v ∈ g.neighbors s,
      ∃ d, tb.probsLookup v s = some d ∧ d.sum = 1) := by
  constructor
  · intro v hv hne
    refine ⟨_, ftLookup_spec hp hq hpre hv hne, ?_⟩
    exact normalize_sum (sum_pos_of_mem_pos (ftSpec_pos hw) (ftSpec_ne_nil hne))
  · intro s hs v hv
    refine ⟨_, probsLookup_spec hp hq hpre hs hv, ?_⟩
    have hvv : v ∈ g.verts := neighbors_subset hv
    have hne : g.neighbors v ≠ [] := by
      intro hnil
      have hsv : s ∈ g.neighbors v := mem_neighbors_symm hs hv
      rw [hnil] at hsv
      cases hsv
    exact normalize_sum (sum_pos_of_mem_pos
      (specUWs_pos hw (hp v hvv) (hq v hvv)) (specUWs_ne_nil hne))

/-- Claim C6, witness: on the triangle, the stored first-travel
distribution of A and the second-order distribution for (B, previous A)
both sum to 1. -/
theorem claim6_witness :
    (∃ d, triangleTables.firstTravelLookup 0 = some d ∧ d.sum = 1) ∧
    (∃ d, triangleTables.probsLookup 1 0 = some d ∧ d.sum = 1) := by
  have h := claim6_distributions_sum_to_one
    (by intro e he; fin_cases he <;> norm_num)
    (fun v _ => by norm_num [get_p, lookupStrategy, trianglePrm, List.find?])
    (fun v _ => by norm_num [get_q, lookupStrategy, trianglePrm, List.find?])
    triangleTables_eq
  exact ⟨h.1 0 (by decide) (by decide), h.2 0 (by decide) 1 (by decide)⟩

/-- Claim C7: the second-order biased walker fails with the
InvalidParameter error (a Python ValueError) whenever
`max_path_length < 2`, while the uniform walker accepts
`max_path_length = 1` and returns the length-1 walk `[v]`. -/
theorem claim7_biased_rejects_short_walks (g : PGraph) (tb : Tables)
    (prm : RandomWalkParameters) (v : Nat) (c cs : Nat → Nat) :
    (prm.max_path_length < 2 → biasedWalk g tb prm v c = .error .valueError) ∧
    (prm.max_path_length = 1 → standardWalk g prm v cs = .ok [v]) := by
  constructor
  · intro h
    unfold biasedWalk
    rw [if_pos h]
  · intro h
    unfold standardWalk
    have haux : standardWalkAux g prm.max_path_length cs v 1 = .ok [] := by
      unfold standardWalkAux
      rw [dif_neg (fun hc => absurd hc.1 (by omega))]
    rw [haux]

/-- Claim C7, witness: with `max_path_length = 1` on the 0–1 pair graph,
the biased walker raises ValueError and the uniform walker returns
`[0]`. -/
theorem claim7_witness :
    biasedWalk pairGraph pairTables { max_path_length := 1 } 0 (fun _ => 0)
      = .error .valueError ∧
    standardWalk pairGraph { max_path_length := 1 } 0 (fun _ => 0) = .ok [0] := by
  have h := claim7_biased_rejects_short_walks pairGraph pairTables
    { max_path_length := 1 } 0 (fun _ => 0) (fun _ => 0)
  exact ⟨h.1 (by decide), h.2 (by decide)⟩

/-- Claim C8, counterexample: with a per-vertex `walk_length = 1`
override and global `max_path_length = 2`, the biased walker produces
the walk `[0, 1]` of length 2, exceeding the effective walk length 1 —
the claimed upper bound fails. -/
theorem claim8_counterexample :
    precompute_probs pairGraph overridePrm = .ok pairTables ∧
    biasedWalk pairGraph pairTables overridePrm 0 (fun _ => 0) = .ok [0, 1] ∧
    effectiveWalkLength overridePrm 0 = 1 ∧
    ¬ (([0, 1] : List Nat).length ≤ effectiveWalkLength overridePrm 0) := by
  refine ⟨pairTables_eq, biasedPairWalk_eq, ?_, ?_⟩
  · simp +decide [effectiveWalkLength, lookupStrategy, overridePrm,
      List.find?, Option.map, Option.getD]
  · simp +decide [effectiveWalkLength, lookupStrategy, overridePrm,
      List.find?, Option.map, Option.getD]

/-- Claim C8 (amended): every walk the uniform and restarting walkers
produce has length between 1 and `max(1, max_path_length)` (these
walkers ignore the per-vertex override), and every walk the biased
walker produces is either empty (a vertex skipped by the `num_walks`
rule) or has length between 1 and `max(2, effective walk length)`, where
the effective walk length is the per-vertex `walk_length` override if
present and the global `max_path_length` otherwise (the biased walker
emits its second vertex before consulting the bound, hence the
`max 2`). -/
theorem claim8_walk_length_bounds :
    (∀ (g : PGraph) (prm : RandomWalkParameters) (v : Nat) (c : Nat → Nat)
        (w : List Nat), standardWalk g prm v c = .ok w →
      1 ≤ w.length ∧ w.length ≤ max 1 prm.max_path_length) ∧
    (∀ (g : PGraph) (prm : RandomWalkParameters) (v : Nat) (u : Nat → Rat)
        (c : Nat → Nat) (w : List Nat), restartingWalk g prm v u c = .ok w →
      1 ≤ w.length ∧ w.length ≤ max 1 prm.max_path_length) ∧
    (∀ (g : PGraph) (tb : Tables) (prm : RandomWalkParameters) (v : Nat)
        (c : Nat → Nat) (w : List Nat), biasedWalk g tb prm v c = .ok w →
      w = [] ∨ (1 ≤ w.length ∧ w.length ≤ max 2 (effectiveWalkLength prm v))) := by
  refine ⟨?_, ?_, ?_⟩
  · intro g prm v c w h
    unfold standardWalk at h
    rcases haux : standardWalkAux g prm.max_path_length c v 1 with e | rest
    · simp only [haux] at h
      cases h
    · simp only [haux] at h
      cases h
      have hlen := standardWalkAux_length (prm.max_path_length - 1) 1 v rest
        le_rfl haux
      refine ⟨by simp, ?_⟩
      simp only [List.length_cons]
      omega
  · intro g prm v u c w h
    unfold restartingWalk at h
    rcases haux : restartingWalkAux g prm.max_path_length
        prm.restart_probability u c v v 1 with e | rest
    · simp only [haux] at h
      cases h
    · simp only [haux] at h
      cases h
      have hlen := restartingWalkAux_length (prm.max_path_length - 1) 1 v rest
        le_rfl haux
      refine ⟨by simp, ?_⟩
      simp only [List.length_cons]
      omega
  · intro g tb prm v c w h
    unfold biasedWalk at h
    by_cases hmpl : prm.max_path_length < 2
    · rw [if_pos hmpl] at h
      cases h
    · rw [if_neg hmpl] at h
      by_cases hb : biased_check prm v = true
      · rw [if_pos hb] at h
        cases h
        exact Or.inl rfl
      · rw [if_neg hb] at h
        rcases hnp : npRandomChoice (g.neighbors v) (tb.firstTravelLookup v) (c 1)
          with e | t
        · simp only [hnp] at h
          cases h
        · simp only [hnp] at h
          rcases hloop : biasedWalkLoop g tb (effectiveWalkLength prm v) c v t 2
            with e | rest
          · simp only [hloop] at h
            cases h
          · simp only [hloop] at h
            cases h
            have hlen := biasedWalkLoop_length (effectiveWalkLength prm v - 2) 2 v t
              rest le_rfl hloop
            refine Or.inr ⟨by simp, ?_⟩
            simp only [List.length_cons]
            omega

/-- Claim C8, witness: the bounds applied to the concrete length-1
uniform walk and to the overshooting biased walk of the counterexample
instance. -/
theorem claim8_witness :
    (1 ≤ ([0] : List Nat).length ∧ ([0] : List Nat).length
        ≤ max 1 (RandomWalkParameters.max_path_length { max_path_length := 1 })) ∧
    (([0, 1] : List Nat) = [] ∨ (1 ≤ ([0, 1] : List Nat).length ∧
        ([0, 1] : List Nat).length ≤ max 2 (effectiveWalkLength overridePrm 0))) :=
  ⟨claim8_walk_length_bounds.1 pairGraph { max_path_length := 1 } 0 (fun _ => 0)
      [0] standardPairWalk_eq,
   claim8_walk_length_bounds.2.2 pairGraph pairTables overridePrm 0 (fun _ => 0)
      [0, 1] biasedPairWalk_eq⟩

/-- Claim C9: corpus generation is a pure function of the graph, the
parameters and the random source (the shuffle draws and the per-walk
draw streams); fixing the random source, two runs produce identical walk
sequences in content and yield order. -/
theorem claim9_corpus_determinism (g : PGraph) (prm : RandomWalkParameters)
    (sh1 sh2 : Nat → List Nat → List Nat) (st1 st2 : Nat → Nat → Nat → Nat)
    (hsh : sh1 = sh2) (hst : st1 = st2) :
    generate_corpus g prm sh1 st1 = generate_corpus g prm sh2 st2 := by
  rw [hsh, hst]

/-- Claim C9, witness: two runs on the triangle with the same fixed
random source coincide. -/
theorem claim9_witness :
    generate_corpus triangleGraph skipPrm (fun _ l => l) (fun _ _ _ => 0)
      = generate_corpus triangleGraph skipPrm (fun _ l => l) (fun _ _ _ => 0) :=
  claim9_corpus_determinism triangleGraph skipPrm _ _ _ _ rfl rfl

/-- Claim C10: construction mutates the caller-supplied graph state:
when `is_weighted` is false every edge weight is overwritten with 1, and
the precomputation stores the second-order distributions and first-travel
distributions as vertex attributes (the `probabilities` and
`first_travel_key` tables of the returned state); concretely, the
weight-5 pair graph declared unweighted comes back with its edge
weight replaced by 1, so the input graph is not left unchanged. -/
theorem claim10_graph_mutation :
    (∀ (g : PGraph) (prm : RandomWalkParameters) (out : PGraph × Tables),
      prm.is_weighted = false → node2vecInit g prm = .ok out →
      out.1.edges = g.edges.map (fun e => (e.1, e.2.1, 1)) ∧
      ∀ e ∈ out.1.edges, e.2.2 = 1) ∧
    node2vecInit unweightedPairGraph unweightedPrm = .ok (pairGraph, pairTables) ∧
    pairGraph ≠ unweightedPairGraph ∧
    pairTables.probsLookup 1 0 = some [1] ∧
    pairTables.firstTravelLookup 0 = some [1] := by
  refine ⟨?_, ?_, ?_, rfl, rfl⟩
  · intro g prm out hwt hinit
    have hform : node2vecInit g prm
        = Except.map (fun tb => (setAllWeights g 1, tb))
            (precompute_probs (setAllWeights g 1) prm) := by
      unfold node2vecInit
      rw [if_neg (by simp [hwt])]
    rw [hform] at hinit
    rcases hpre : precompute_probs (setAllWeights g 1) prm with e | tb
    · rw [hpre] at hinit
      cases hinit
    · rw [hpre] at hinit
      simp only [Except.map] at hinit
      cases hinit
      constructor
      · rfl
      · intro e he
        simp only [setAllWeights] at he
        obtain ⟨e', _, rfl⟩ := List.mem_map.mp he
        rfl
  · have hset : setAllWeights unweightedPairGraph 1 = pairGraph := by
      simp [setAllWeights, unweightedPairGraph, pairGraph]
    unfold node2vecInit
    rw [if_neg (by simp [unweightedPrm]), hset]
    show Except.map (fun tb => (pairGraph, tb))
        (precompute_probs pairGraph unweightedPrm) = _
    rw [unweightedPairTables_eq]
    rfl
  · intro hcontra
    have h5 : (1 : Rat) = 5 := by
      have hedges := congrArg (fun gr => gr.edges) hcontra
      simp only [pairGraph, unweightedPairGraph, List.cons.injEq,
        Prod.mk.injEq] at hedges
      exact hedges.1.2.2
    norm_num at h5

/-- Claim C10, witness: the general overwrite statement instantiated on
the concrete unweighted construction. -/
theorem claim10_witness :
    pairGraph.edges = unweightedPairGraph.edges.map (fun e => (e.1, e.2.1, 1)) ∧
    ∀ e ∈ pairGraph.edges, e.2.2 = 1 :=
  claim10_graph_mutation.1 unweightedPairGraph unweightedPrm (pairGraph, pairTables)
    rfl claim10_graph_mutation.2.1

end NRL
